import Mathlib

/-
Verification of the document model, preview
pipeline and markdown renderer, as a shallow embedding of the Rust
sources (src/model/document.rs, src/model/undo.rs, src/model/preview.rs,
src/services/markdown.rs, src/services/tasks.rs, src/ui/root.rs).

Conventions of the embedding:
  - ropey::Rope is modelled by its character content, a `List Char`
    (the Hash and equality of ropey ropes are content determined).
  - u64 counters are `Nat`; where the Rust code wraps (wrapping_add)
    the embedding reduces modulo 2^64.
  - std::ops::Range<usize> is the structure `CRange` below.
  - Vec used as a stack (push/pop at the end, truncation at index 0)
    is modelled head-as-top: push is cons, pop takes the head, and the
    history-limit truncation is `List.take`.
  - A Rust call that can panic (Rope::insert of ropey on an
    out-of-bounds index) returns `Option`, `none` meaning the panic.
  - std::collections::hash_map::DefaultHasher is an unspecified
    deterministic function of the hashed content; it is modelled by the
    concrete deterministic function `hashChars`.  No theorem below
    depends on particular hash values, only on `hashChars` being a
    function of the content.
-/

/-- 2^64, the modulus of u64 arithmetic. -/
def u64Mod : Nat := 18446744073709551616

/-- Model of std DefaultHasher applied to the rope content
(a deterministic function of the character sequence). -/
def hashChars (cs : List Char) : Nat :=
  cs.foldl (fun h c => (h * 1000003 + c.toNat + 1) % u64Mod) 5381

/-- std::ops::Range<usize>: `start..stop` (Rust field `end`). -/
structure CRange where
  start : Nat
  stop : Nat
deriving Repr, DecidableEq

/-- src/model/undo.rs: EditOperation. -/
structure EditOperation where
  old_text : List Char
  new_text : List Char
  old_cursor : Nat
  new_cursor : Nat
  old_selection : Option CRange
  new_selection : Option CRange
deriving Repr, DecidableEq

/-- src/model/undo.rs: UndoHistory.  The stacks are head-as-top. -/
structure UndoHistory where
  undo_stack : List EditOperation
  redo_stack : List EditOperation
  max_history : Nat
deriving Repr, DecidableEq

/-- UndoHistory::new. -/
def UndoHistory.new (max_history : Nat) : UndoHistory :=
  ⟨[], [], max_history⟩

/-- UndoHistory::default: limit of 100 operations. -/
def UndoHistory.mkDefault : UndoHistory :=
  UndoHistory.new 100

/-- UndoHistory::push: push onto the undo stack, clear the redo stack,
drop the oldest entries beyond max_history. -/
def UndoHistory.push (h : UndoHistory) (op : EditOperation) : UndoHistory :=
  { h with undo_stack := (op :: h.undo_stack).take h.max_history,
           redo_stack := [] }

/-- UndoHistory::undo: pop the undo stack, push the popped operation on
the redo stack; `none` when empty. -/
def UndoHistory.undo (h : UndoHistory) : Option (EditOperation × UndoHistory) :=
  match h.undo_stack with
  | [] => none
  | op :: rest =>
      some (op, { h with undo_stack := rest, redo_stack := op :: h.redo_stack })

/-- UndoHistory::redo: pop the redo stack, push the popped operation on
the undo stack; `none` when empty. -/
def UndoHistory.redo (h : UndoHistory) : Option (EditOperation × UndoHistory) :=
  match h.redo_stack with
  | [] => none
  | op :: rest =>
      some (op, { h with redo_stack := rest, undo_stack := op :: h.undo_stack })

/-- UndoHistory::clear. -/
def UndoHistory.clear (h : UndoHistory) : UndoHistory :=
  { h with undo_stack := [], redo_stack := [] }

/-- src/model/document.rs: PendingEdit. -/
structure PendingEdit where
  old_text : List Char
  old_cursor : Nat
  old_selection : Option CRange
deriving Repr, DecidableEq

/-- src/model/document.rs: DocumentState.  `rope` is the character
content of the ropey rope; `path` carries no structure the claims use. -/
structure DocumentState where
  path : Option String
  rope : List Char
  dirty : Bool
  revision : Nat
  last_saved_hash : Nat
  cursor : Nat
  selection : Option CRange
  selection_anchor : Option Nat
  word_count_cache : Option Nat
  undo_history : UndoHistory
  pending_edit : Option PendingEdit
deriving Repr, DecidableEq

namespace DocumentState

/-- DocumentState::new_empty. -/
def new_empty : DocumentState :=
  { path := none
    rope := []
    dirty := false
    revision := 0
    last_saved_hash := 0
    cursor := 0
    selection := none
    selection_anchor := none
    word_count_cache := some 0
    undo_history := UndoHistory.mkDefault
    pending_edit := none }

/-- DocumentState::len_chars. -/
def len_chars (d : DocumentState) : Nat := d.rope.length

/-- DocumentState::text (rope to string). -/
def text (d : DocumentState) : List Char := d.rope

/-- DocumentState::current_hash. -/
def current_hash (d : DocumentState) : Nat := hashChars d.rope

/-- DocumentState::bump_revision: `revision.wrapping_add(1)`. -/
def bump_revision (d : DocumentState) : DocumentState :=
  { d with revision := (d.revision + 1) % u64Mod }

/-- DocumentState::clear_selection. -/
def clear_selection (d : DocumentState) : DocumentState :=
  { d with selection := none, selection_anchor := none }

/-- DocumentState::set_text: replace the rope, cursor to end, clear the
selection, bump revision, invalidate the word-count cache.  Dirty and
last_saved_hash are not touched (the source comment defers dirty
handling to save_snapshot). -/
def set_text (d : DocumentState) (t : List Char) : DocumentState :=
  let d1 := { d with rope := t }
  let d2 := { d1 with cursor := d1.rope.length }
  let d3 := d2.clear_selection.bump_revision
  { d3 with word_count_cache := none }

/-- DocumentState::set_cursor: clamp to len_chars and clear selection. -/
def set_cursor (d : DocumentState) (idx : Nat) : DocumentState :=
  ({ d with cursor := min idx d.len_chars }).clear_selection

/-- DocumentState::set_selection: normalize so start ≤ stop, store None
when the normalized endpoints coincide, else the clamped range; cursor
is the clamped normalized end; anchor the clamped normalized start. -/
def set_selection (d : DocumentState) (start stop : Nat) : DocumentState :=
  let p := if start ≤ stop then (start, stop) else (stop, start)
  { d with
    selection :=
      if p.1 = p.2 then none
      else some ⟨min p.1 d.len_chars, min p.2 d.len_chars⟩
    cursor := min p.2 d.len_chars
    selection_anchor := some (min p.1 d.len_chars) }

/-- DocumentState::insert: the ropey Rope::insert panics when
`char_idx > len_chars` (`none` here); otherwise splice the text in,
bump revision, set dirty, clear selection, invalidate the cache. -/
def insert (d : DocumentState) (char_idx : Nat) (t : List Char) : Option DocumentState :=
  if char_idx ≤ d.rope.length then
    some ((({ d with
        rope := d.rope.take char_idx ++ t ++ d.rope.drop char_idx,
        dirty := true,
        word_count_cache := none }).bump_revision).clear_selection)
  else
    none

/-- DocumentState::delete_range: silent no-op when start ≥ stop or
stop > len_chars; otherwise remove the range, bump revision, set dirty,
clamp the cursor into the new bounds, clear selection. -/
def delete_range (d : DocumentState) (range : CRange) : DocumentState :=
  if range.start ≥ range.stop ∨ range.stop > d.rope.length then d
  else
    let newRope := d.rope.take range.start ++ d.rope.drop range.stop
    ((({ d with
        rope := newRope,
        dirty := true,
        cursor := min d.cursor newRope.length,
        word_count_cache := none }).bump_revision).clear_selection)

/-- DocumentState::delete_selection. -/
def delete_selection (d : DocumentState) : DocumentState × Option Nat :=
  match d.selection with
  | some range =>
      let d1 := d.delete_range range
      let new_cursor := min range.start d1.len_chars
      (({ d1 with cursor := new_cursor }).clear_selection, some new_cursor)
  | none => (d, none)

/-- DocumentState::select_all. -/
def select_all (d : DocumentState) : DocumentState :=
  let len := d.len_chars
  { d with
    selection := if len = 0 then none else some ⟨0, len⟩
    selection_anchor := some 0
    cursor := len }

/-- DocumentState::save_snapshot. -/
def save_snapshot (d : DocumentState) : DocumentState :=
  { d with last_saved_hash := d.current_hash, dirty := false }

/-- DocumentState::begin_edit: capture the pre-edit text, cursor and
selection. -/
def begin_edit (d : DocumentState) : DocumentState :=
  { d with pending_edit := some ⟨d.text, d.cursor, d.selection⟩ }

/-- DocumentState::commit_edit: turn the pending capture plus the
current state into an EditOperation and push it. -/
def commit_edit (d : DocumentState) : DocumentState :=
  match d.pending_edit with
  | none => d
  | some p =>
      { d with
        pending_edit := none
        undo_history := d.undo_history.push
          ⟨p.old_text, d.text, p.old_cursor, d.cursor, p.old_selection, d.selection⟩ }

/-- DocumentState::undo: pop the history, restore the old text, clamp
the old cursor, restore the old selection, re-derive the anchor, bump
revision, invalidate the cache, re-derive dirty from the content hash.
The Bool is the Rust return value. -/
def undo (d : DocumentState) : DocumentState × Bool :=
  match d.undo_history.undo with
  | some (op, h) =>
      ({ d with
          undo_history := h
          rope := op.old_text
          cursor := min op.old_cursor op.old_text.length
          selection := op.old_selection
          selection_anchor := op.old_selection.map CRange.start
          revision := (d.revision + 1) % u64Mod
          word_count_cache := none
          dirty := decide (hashChars op.old_text ≠ d.last_saved_hash) }, true)
  | none => (d, false)

/-- DocumentState::redo: symmetric to undo, restoring the new side of
the popped operation. -/
def redo (d : DocumentState) : DocumentState × Bool :=
  match d.undo_history.redo with
  | some (op, h) =>
      ({ d with
          undo_history := h
          rope := op.new_text
          cursor := min op.new_cursor op.new_text.length
          selection := op.new_selection
          selection_anchor := op.new_selection.map CRange.start
          revision := (d.revision + 1) % u64Mod
          word_count_cache := none
          dirty := decide (hashChars op.new_text ≠ d.last_saved_hash) }, true)
  | none => (d, false)

end DocumentState

/-
============================================================
src/services/markdown.rs
============================================================
The parser (pulldown_cmark) is an external crate: render_blocks is
embedded as a function of the event stream the parser yields, so the
theorems below quantify over every possible event stream.  Vec-as-stack
(link_stack) is modelled head-as-top.  The two HashMaps are modelled as
association lists in insertion order; Rust HashMap iteration order is
arbitrary, but footnote display indices are pairwise distinct and the
result list is sorted by index afterwards, so the output does not
depend on the iteration order.
-/

/-- src/services/markdown.rs: InlineRun. -/
structure InlineRun where
  text : String
  bold : Bool
  italic : Bool
  code : Bool
  link : Option String
deriving Repr, DecidableEq

/-- InlineRun::new. -/
def InlineRun.new (text : String) (bold italic code : Bool) (link : Option String) : InlineRun :=
  ⟨text, bold, italic, code, link⟩

/-- src/services/markdown.rs: Block. -/
inductive Block where
  | paragraph (runs : List InlineRun)
  | heading (level : Nat) (runs : List InlineRun)
  | listItem (runs : List InlineRun)
  | orderedListItem (number : Nat) (content : List InlineRun)
  | taskListItem (checked : Bool) (content : List InlineRun)
  | codeBlock (text : String)
  | quote (runs : List InlineRun)
  | image (alt src : String)
  | footnoteRef (label : String) (index : Nat)
  | footnoteDefinition (label : String) (index : Nat) (content : List InlineRun)
deriving Repr, DecidableEq

/-- src/services/markdown.rs: ParsedDocument. -/
structure ParsedDocument where
  blocks : List Block
  footnotes : List Block
deriving Repr, DecidableEq

/-- src/services/markdown.rs: BlockKind. -/
inductive BlockKind where
  | paragraph
  | heading (level : Nat)
  | listItem
  | quote
deriving Repr, DecidableEq

/-- pulldown_cmark::HeadingLevel. -/
inductive HeadingLvl where
  | h1 | h2 | h3 | h4 | h5 | h6
deriving Repr, DecidableEq

/-- The u32 the render loop maps a HeadingLevel to. -/
def HeadingLvl.toNat : HeadingLvl → Nat
  | .h1 => 1 | .h2 => 2 | .h3 => 3 | .h4 => 4 | .h5 => 5 | .h6 => 6

/-- The pulldown_cmark events the render loop matches on; `other`
stands for every event the catch-all arm ignores. -/
inductive MdEvent where
  | startParagraph
  | endParagraph
  | startHeading (level : HeadingLvl)
  | endHeading
  | startList (start_number : Option Nat)
  | endList
  | startItem
  | endItem
  | taskListMarker (checked : Bool)
  | startBlockQuote
  | endBlockQuote
  | startCodeBlock
  | endCodeBlock
  | startFootnoteDefinition (label : String)
  | endFootnoteDefinition
  | footnoteReference (label : String)
  | text (t : String)
  | code (t : String)
  | startEmphasis
  | endEmphasis
  | startStrong
  | endStrong
  | startLink (dest_url : String)
  | endLink
  | startImage (dest_url : String)
  | endImage
  | hardOrSoftBreak
  | other
deriving Repr, DecidableEq

/-- Association-list lookup (HashMap::get / entry lookup). -/
def lookupAssoc {α : Type} (m : List (String × α)) (k : String) : Option α :=
  match m with
  | [] => none
  | (k1, v) :: rest => if k1 = k then some v else lookupAssoc rest k

/-- Association-list removal (HashMap::remove, value dropped). -/
def removeAssoc {α : Type} (m : List (String × α)) (k : String) : List (String × α) :=
  match m with
  | [] => []
  | (k1, v) :: rest => if k1 = k then rest else (k1, v) :: removeAssoc rest k

/-- Association-list insert (HashMap::insert): replace an existing
binding, else append. -/
def insertAssoc {α : Type} (m : List (String × α)) (k : String) (v : α) : List (String × α) :=
  match m with
  | [] => [(k, v)]
  | (k1, v1) :: rest =>
      if k1 = k then (k1, v) :: rest else (k1, v1) :: insertAssoc rest k v

/-- The mutable locals of render_blocks. -/
structure RenderState where
  blocks : List Block
  runs : List InlineRun
  bold_stack : Nat
  italic_stack : Nat
  link_stack : List String
  in_quote : Bool
  heading_level : Option Nat
  in_list_item : Bool
  code_block : Option String
  image_context : Option (String × String)
  task_list_checked : Option Bool
  ordered_list_counter : Option Nat
  footnote_indices : List (String × Nat)
  next_footnote_index : Nat
  footnote_definitions : List (String × List InlineRun)
  current_footnote_def : Option String
  footnote_runs : List InlineRun
deriving Repr, DecidableEq

/-- Initial values of the render_blocks locals. -/
def RenderState.init : RenderState :=
  { blocks := [], runs := [], bold_stack := 0, italic_stack := 0,
    link_stack := [], in_quote := false, heading_level := none,
    in_list_item := false, code_block := none, image_context := none,
    task_list_checked := none, ordered_list_counter := none,
    footnote_indices := [], next_footnote_index := 1,
    footnote_definitions := [], current_footnote_def := none,
    footnote_runs := [] }

/-- The push_runs_as closure: flush the run buffer into a block of the
given kind, unless the buffer is empty. -/
def push_runs_as (target : List Block) (runs : List InlineRun) (kind : BlockKind) :
    List Block × List InlineRun :=
  if runs = [] then (target, runs)
  else
    let block := match kind with
      | .paragraph => Block.paragraph runs
      | .heading level => Block.heading level runs
      | .listItem => Block.listItem runs
      | .quote => Block.quote runs
    (target ++ [block], [])

/-- One iteration of the render_blocks event loop, in source order of
the match arms. -/
def renderStep (st : RenderState) (ev : MdEvent) : RenderState :=
  match ev with
  | .startParagraph =>
      if st.current_footnote_def = none then
        { st with runs := [], heading_level := none, in_list_item := false }
      else st
  | .endParagraph =>
      if st.current_footnote_def = none then
        let kind := if st.in_quote then BlockKind.quote else BlockKind.paragraph
        let p := push_runs_as st.blocks st.runs kind
        { st with blocks := p.1, runs := p.2, bold_stack := 0, italic_stack := 0 }
      else st
  | .startHeading level =>
      { st with runs := [], heading_level := some level.toNat }
  | .endHeading =>
      let lvl := st.heading_level.getD 1
      let p := push_runs_as st.blocks st.runs (BlockKind.heading lvl)
      { st with blocks := p.1, runs := p.2, heading_level := none,
                bold_stack := 0, italic_stack := 0 }
  | .startList start_number =>
      { st with ordered_list_counter := start_number }
  | .endList =>
      { st with ordered_list_counter := none }
  | .startItem =>
      { st with runs := [], in_list_item := true, task_list_checked := none }
  | .endItem =>
      let st1 :=
        match st.task_list_checked with
        | some checked =>
            let st0 := { st with task_list_checked := none }
            if st0.runs ≠ [] then
              { st0 with blocks := st0.blocks ++ [Block.taskListItem checked st0.runs],
                         runs := [] }
            else st0
        | none =>
            match st.ordered_list_counter with
            | some counter =>
                let st0 :=
                  if st.runs ≠ [] then
                    { st with blocks := st.blocks ++ [Block.orderedListItem counter st.runs],
                              runs := [] }
                  else st
                { st0 with ordered_list_counter := some (counter + 1) }
            | none =>
                let p := push_runs_as st.blocks st.runs BlockKind.listItem
                { st with blocks := p.1, runs := p.2 }
      { st1 with in_list_item := false }
  | .taskListMarker checked =>
      { st with task_list_checked := some checked }
  | .startBlockQuote =>
      { st with in_quote := true }
  | .endBlockQuote =>
      { st with in_quote := false }
  | .startCodeBlock =>
      { st with code_block := some "" }
  | .endCodeBlock =>
      match st.code_block with
      | some t => { st with blocks := st.blocks ++ [Block.codeBlock t], code_block := none }
      | none => st
  | .startFootnoteDefinition label =>
      { st with current_footnote_def := some label, footnote_runs := [] }
  | .endFootnoteDefinition =>
      match st.current_footnote_def with
      | some label =>
          { st with
            footnote_definitions := insertAssoc st.footnote_definitions label st.footnote_runs,
            footnote_runs := [], current_footnote_def := none }
      | none => st
  | .footnoteReference label =>
      let q :=
        match lookupAssoc st.footnote_indices label with
        | some idx => (idx, st.footnote_indices, st.next_footnote_index)
        | none =>
            (st.next_footnote_index,
             st.footnote_indices ++ [(label, st.next_footnote_index)],
             st.next_footnote_index + 1)
      let st1 := { st with footnote_indices := q.2.1, next_footnote_index := q.2.2 }
      let st2 :=
        if st1.runs ≠ [] then
          let kind := if st1.in_quote then BlockKind.quote else BlockKind.paragraph
          let p := push_runs_as st1.blocks st1.runs kind
          { st1 with blocks := p.1, runs := p.2 }
        else st1
      { st2 with blocks := st2.blocks ++ [Block.footnoteRef label q.1] }
  | .text t =>
      match st.code_block with
      | some cb => { st with code_block := some (cb ++ t) }
      | none =>
        match st.image_context with
        | some (src, alt) => { st with image_context := some (src, alt ++ t) }
        | none =>
          let run := InlineRun.new t (st.bold_stack > 0) (st.italic_stack > 0) false
            st.link_stack.head?
          if st.current_footnote_def ≠ none then
            { st with footnote_runs := st.footnote_runs ++ [run] }
          else
            { st with runs := st.runs ++ [run] }
  | .code t =>
      let run := InlineRun.new t (st.bold_stack > 0) (st.italic_stack > 0) true
        st.link_stack.head?
      if st.current_footnote_def ≠ none then
        { st with footnote_runs := st.footnote_runs ++ [run] }
      else
        { st with runs := st.runs ++ [run] }
  | .startEmphasis =>
      { st with italic_stack := st.italic_stack + 1 }
  | .endEmphasis =>
      { st with italic_stack := st.italic_stack - 1 }
  | .startStrong =>
      { st with bold_stack := st.bold_stack + 1 }
  | .endStrong =>
      { st with bold_stack := st.bold_stack - 1 }
  | .startLink dest_url =>
      { st with link_stack := dest_url :: st.link_stack }
  | .endLink =>
      { st with link_stack := st.link_stack.tail }
  | .startImage dest_url =>
      { st with image_context := some (dest_url, "") }
  | .endImage =>
      match st.image_context with
      | some (src, alt) =>
          { st with blocks := st.blocks ++ [Block.image alt src], image_context := none }
      | none => st
  | .hardOrSoftBreak =>
      let run := InlineRun.new "\n" (st.bold_stack > 0) (st.italic_stack > 0) false
        st.link_stack.head?
      if st.current_footnote_def ≠ none then
        { st with footnote_runs := st.footnote_runs ++ [run] }
      else
        { st with runs := st.runs ++ [run] }
  | .other => st

/-- The post-loop collection of footnote definitions: iterate the
referenced labels, removing each found definition from the map
(filter_map with HashMap::remove). -/
def collectFootnotes :
    List (String × Nat) → List (String × List InlineRun) →
    List (Nat × String × List InlineRun)
  | [], _ => []
  | (label, index) :: rest, defs =>
      match lookupAssoc defs label with
      | some content => (index, label, content) :: collectFootnotes rest (removeAssoc defs label)
      | none => collectFootnotes rest defs

/-- Stable insertion into a list sorted by the Nat key (sort_by_key). -/
def insertByKey (x : Nat × String × List InlineRun) :
    List (Nat × String × List InlineRun) → List (Nat × String × List InlineRun)
  | [] => [x]
  | y :: rest => if y.1 ≤ x.1 then y :: insertByKey x rest else x :: y :: rest

/-- Stable sort by the Nat key (Vec::sort_by_key is a stable sort). -/
def sortByKey : List (Nat × String × List InlineRun) → List (Nat × String × List InlineRun)
  | [] => []
  | x :: rest => insertByKey x (sortByKey rest)

/-- Everything render_blocks does after the event loop: flush a
trailing run buffer, then build the footnote list ordered by display
index. -/
def renderFinish (st : RenderState) : ParsedDocument :=
  let st1 :=
    if st.runs ≠ [] then
      let kind :=
        if st.in_quote then BlockKind.quote
        else if st.in_list_item then BlockKind.listItem
        else BlockKind.paragraph
      let p := push_runs_as st.blocks st.runs kind
      { st with blocks := p.1, runs := p.2 }
    else st
  let footnotes := sortByKey (collectFootnotes st1.footnote_indices st1.footnote_definitions)
  { blocks := st1.blocks,
    footnotes := footnotes.map (fun x => Block.footnoteDefinition x.2.1 x.1 x.2.2) }

/-- src/services/markdown.rs: render_blocks, as a function of the
pulldown_cmark event stream. -/
def render_blocks (events : List MdEvent) : ParsedDocument :=
  renderFinish (events.foldl renderStep RenderState.init)

/-
============================================================
src/model/preview.rs and the publish step of RootView::render
(src/ui/root.rs, the preview.update closure)
============================================================
-/

/-- src/model/preview.rs: PreviewState. -/
structure PreviewState where
  blocks : List Block
  footnotes : List Block
  source_revision : Nat
deriving Repr, DecidableEq

/-- PreviewState::new. -/
def PreviewState.new : PreviewState :=
  { blocks := [], footnotes := [], source_revision := 0 }

/-- The publish step of RootView::render: a completed parse carrying
its captured target_rev is applied iff target_rev ≥ source_revision at
apply time, else the state is left untouched. -/
def publish (target_rev : Nat) (parsed : ParsedDocument) (p : PreviewState) : PreviewState :=
  if target_rev ≥ p.source_revision then
    { blocks := parsed.blocks, footnotes := parsed.footnotes, source_revision := target_rev }
  else p

/-- A sequence of parse completions, in the order they reach the
preview entity, applied one after the other. -/
def publishAll (completions : List (Nat × ParsedDocument)) (p : PreviewState) : PreviewState :=
  completions.foldl (fun acc c => publish c.1 c.2 acc) p

/-
============================================================
src/services/tasks.rs: Debouncer
============================================================
Debouncer::schedule takes the previous task handle and moves it into
the newly spawned future, which awaits it, sleeps, then runs its job.
In gpui a Task is cancelled only when its handle is dropped; here the
handle is awaited instead, so polling a chain to completion runs every
job in the chain, oldest first.  Jobs are identified by a Nat; the
entity.update step that invokes a job is modelled as emitting that Nat.
-/

/-- A spawned debounce task: its captured `previous` handle (if any)
and its job. -/
inductive SpawnedTask where
  | base (job : Nat)
  | chained (previous : SpawnedTask) (job : Nat)
deriving Repr, DecidableEq

/-- src/services/tasks.rs: Debouncer (the delay Duration plays no role
in which jobs run). -/
structure Debouncer where
  task : Option SpawnedTask
deriving Repr, DecidableEq

/-- Debouncer::new. -/
def Debouncer.new : Debouncer := { task := none }

/-- Debouncer::schedule: take the previous task, spawn a future that
awaits it, sleeps, then runs `job`. -/
def Debouncer.schedule (d : Debouncer) (job : Nat) : Debouncer :=
  { task :=
      some (match d.task with
            | none => SpawnedTask.base job
            | some previous => SpawnedTask.chained previous job) }

/-- The jobs that run when a task chain is polled to completion:
awaiting `previous` runs it to completion (nothing cancels it), then
the own job runs. -/
def SpawnedTask.executedJobs : SpawnedTask → List Nat
  | .base job => [job]
  | .chained previous job => previous.executedJobs ++ [job]

/-- The jobs the pending work of the debouncer will run. -/
def Debouncer.executedJobs (d : Debouncer) : List Nat :=
  match d.task with
  | none => []
  | some t => t.executedJobs

/-
============================================================
DocumentState::get_word_count (src/model/document.rs, lines 182-191)
============================================================
The count is computed per rope chunk:
  rope.chunks().flat_map(|chunk| chunk.split_whitespace()).count()
so the chunk decomposition of the stored text matters.  ropey chooses
chunk boundaries by byte size (roughly 1 KiB), never by word
boundaries, so a long word can span two chunks.  The functions below
model the computation over an arbitrary chunk decomposition.
-/

/-- str::split_whitespace on a character list: the list of maximal
runs of non-whitespace characters. -/
def splitWhitespaceChars (cs : List Char) : List (List Char) :=
  match cs with
  | [] => []
  | c :: rest =>
      let tailSplit := splitWhitespaceChars rest
      if c.isWhitespace then tailSplit
      else
        match rest with
        | [] => [[c]]
        | c2 :: _ =>
            if c2.isWhitespace then [c] :: tailSplit
            else
              match tailSplit with
              | [] => [[c]]
              | w :: ws => (c :: w) :: ws

/-- The whitespace-separated word count of a text. -/
def wordCount (cs : List Char) : Nat :=
  (splitWhitespaceChars cs).length

/-- The computation get_word_count performs when the cache is cold,
over the chunk decomposition the rope happens to have:
  chunks().flat_map(split_whitespace).count(). -/
def getWordCountChunks (chunks : List (List Char)) : Nat :=
  (chunks.flatMap splitWhitespaceChars).length

/-
============================================================
Bracketed edits (begin_edit .. commit_edit) and undo/redo scripts
============================================================
-/

/-- The DocumentState mutations an edit bracket may contain (the
content- and caret-mutating public API of document.rs). -/
inductive EditorMut where
  | insertText (char_idx : Nat) (t : List Char)
  | deleteRange (range : CRange)
  | setText (t : List Char)
  | setCursor (idx : Nat)
  | setSelection (start stop : Nat)
  | clearSelection
  | selectAll
  | deleteSelection
deriving Repr, DecidableEq

/-- Apply one mutation; `none` models the panic of an out-of-bounds
insert. -/
def applyMut (d : DocumentState) : EditorMut → Option DocumentState
  | .insertText char_idx t => d.insert char_idx t
  | .deleteRange range => some (d.delete_range range)
  | .setText t => some (d.set_text t)
  | .setCursor idx => some (d.set_cursor idx)
  | .setSelection start stop => some (d.set_selection start stop)
  | .clearSelection => some d.clear_selection
  | .selectAll => some d.select_all
  | .deleteSelection => some (d.delete_selection).1

/-- Apply a list of mutations left to right. -/
def applyMuts (d : DocumentState) : List EditorMut → Option DocumentState
  | [] => some d
  | m :: ms => (applyMut d m).bind (fun d1 => applyMuts d1 ms)

/-- One bracketed edit: begin_edit, the mutations, commit_edit. -/
def runBracketed (d : DocumentState) (muts : List EditorMut) : Option DocumentState :=
  (applyMuts d.begin_edit muts).map DocumentState.commit_edit

/-- A sequence of bracketed edits. -/
def runEdits (d : DocumentState) : List (List EditorMut) → Option DocumentState
  | [] => some d
  | e :: es => (runBracketed d e).bind (fun d1 => runEdits d1 es)

/-- Call undo() n times. -/
def undoN : Nat → DocumentState → DocumentState
  | 0, d => d
  | n + 1, d => undoN n (d.undo).1

/-- Call redo() n times. -/
def redoN : Nat → DocumentState → DocumentState
  | 0, d => d
  | n + 1, d => redoN n (d.redo).1

/-
============================================================
Spec-side definitions (from the words of the spec, for comparison
with the embedded code)
============================================================
-/

/-- One step of collecting footnote labels in order of first
reference. -/
def refStep (acc : List String) : MdEvent → List String
  | .footnoteReference label => if label ∈ acc then acc else acc ++ [label]
  | _ => acc

/-- Spec: the footnote labels in order of first reference. -/
def firstRefLabels (events : List MdEvent) : List String :=
  events.foldl refStep []

/-- Pair each list element with its position counting from k. -/
def enumFrom (k : Nat) : List String → List (String × Nat)
  | [] => []
  | l :: ls => (l, k) :: enumFrom (k + 1) ls

/-- The footnote-definition map the renderer ends up with. -/
def finalDefsOf (events : List MdEvent) : List (String × List InlineRun) :=
  (events.foldl renderStep RenderState.init).footnote_definitions

/-- Modelled from the spec: the footnotes output described by the
claim - each referenced label gets the 1-based index of its first
reference, definitions of unreferenced labels are dropped, referenced
labels without a definition are dropped, and the list is ordered by
display index (which is the order of first reference). -/
def specFootnotes (events : List MdEvent) : List Block :=
  (enumFrom 1 (firstRefLabels events)).filterMap (fun li =>
    (lookupAssoc (finalDefsOf events) li.1).map (fun c =>
      Block.footnoteDefinition li.1 li.2 c))

/-- The display index of a footnote-definition block. -/
def footnoteIndexOf : Block → Option Nat
  | .footnoteDefinition _ index _ => some index
  | _ => none

/-
============================================================
Concrete documents used by counterexamples and witnesses
============================================================
-/

/-- A document saved with content "a". -/
def docSavedA : DocumentState :=
  (DocumentState.new_empty.set_text ['a']).save_snapshot

/-- docSavedA after inserting "b" at index 1 (content "ab", dirty). -/
def docSavedAB : DocumentState :=
  (docSavedA.insert 1 ['b']).getD DocumentState.new_empty

/-- docSavedAB after deleting the "b" again: the content equals the
saved content but delete_range set dirty unconditionally. -/
def docBackToA : DocumentState :=
  docSavedAB.delete_range ⟨1, 2⟩

/-- docSavedAB after set_text("a"): content equals the saved content
but set_text leaves the dirty flag untouched. -/
def docSetTextA : DocumentState :=
  docSavedAB.set_text ['a']

/-- The result of inserting "a" into the empty document at index 0. -/
def docInsertA : DocumentState :=
  { DocumentState.new_empty with
      rope := ['a'], dirty := true, revision := 1, word_count_cache := none }

/-- A ten-character document, long enough for set_selection(10, 3). -/
def docTen : DocumentState :=
  DocumentState.new_empty.set_text (List.replicate 10 'a')

/-- The debouncer after two schedule calls in quick succession (the
second arriving while the first unit of work is still pending). -/
def twoSchedules : Debouncer :=
  (Debouncer.new.schedule 1).schedule 2

/-- A one-edit script for the C6 witness. -/
def c6edits : List (List EditorMut) := [[EditorMut.insertText 0 ['a']]]

/-- The document produced by running c6edits on the empty document. -/
def c6doc : DocumentState :=
  (runEdits DocumentState.new_empty c6edits).getD DocumentState.new_empty

/-
============================================================
Theorems
============================================================
-/

/-- Helper: a publish step never lowers source_revision. -/
theorem publish_source_mono (target_rev : Nat) (parsed : ParsedDocument)
    (p : PreviewState) :
    p.source_revision ≤ (publish target_rev parsed p).source_revision := by
  unfold publish
  split
  · assumption
  · exact le_rfl

/-- C1: a completed parse with captured revision target_rev is applied
to the PreviewState (replacing blocks, footnotes and source_revision)
iff target_rev ≥ source_revision at apply time, and is otherwise
discarded; consequently, over any sequence of publish attempts in any
completion order, source_revision never decreases. -/
theorem c1_publish_revision_fencing :
    (∀ (target_rev : Nat) (parsed : ParsedDocument) (p : PreviewState),
        p.source_revision ≤ target_rev →
        publish target_rev parsed p =
          { blocks := parsed.blocks, footnotes := parsed.footnotes,
            source_revision := target_rev }) ∧
    (∀ (target_rev : Nat) (parsed : ParsedDocument) (p : PreviewState),
        target_rev < p.source_revision →
        publish target_rev parsed p = p) ∧
    (∀ (completions : List (Nat × ParsedDocument)) (p : PreviewState) (n : Nat),
        (publishAll (completions.take n) p).source_revision ≤
        (publishAll (completions.take (n + 1)) p).source_revision) := by
  refine ⟨?_, ?_, ?_⟩
  · intro target_rev parsed p h
    unfold publish
    rw [if_pos h]
  · intro target_rev parsed p h
    unfold publish
    rw [if_neg (by omega)]
  · intro completions p n
    rw [List.take_succ]
    unfold publishAll
    rw [List.foldl_append]
    cases h : completions[n]? with
    | none => simp
    | some c => simpa using publish_source_mono c.1 c.2 _

/-- Witness for C1, at the revisions of the spec example: the rev-7
result publishes into a rev-5 preview, then the late rev-5 result is
discarded and the revision stays 7. -/
theorem c1_publish_revision_fencing_witness :
    publish 7 ⟨[], []⟩ ⟨[], [], 5⟩ = ⟨[], [], 7⟩ ∧
    publish 5 ⟨[], []⟩ ⟨[], [], 7⟩ = ⟨[], [], 7⟩ :=
  ⟨c1_publish_revision_fencing.1 7 ⟨[], []⟩ ⟨[], [], 5⟩ (by decide),
   c1_publish_revision_fencing.2.1 5 ⟨[], []⟩ ⟨[], [], 7⟩ (by decide)⟩

/-- C2 counterexample: insert "b" into a saved document "a", then
delete it again; the content equals the saved content (equal hashes)
yet dirty is still true, because delete_range sets dirty
unconditionally instead of comparing hashes. -/
theorem c2_counterexample :
    docBackToA.dirty = true ∧
    hashChars docBackToA.text = docBackToA.last_saved_hash := by
  constructor
  · decide
  · decide

/-- C2 amended: the invariant dirty == (hash(text) != last_saved_hash)
holds after every effective undo() and redo(), where dirty is in fact
re-derived from the hash; but insert and an effective delete_range set
dirty to true unconditionally and set_text leaves dirty unchanged, so
an edit sequence that returns the buffer to the last-saved content
leaves dirty true, not false. -/
theorem c2_dirty_invariant_amended :
    (∀ d : DocumentState, (d.undo).2 = true →
        ((d.undo).1.dirty = true ↔
          hashChars (d.undo).1.text ≠ (d.undo).1.last_saved_hash)) ∧
    (∀ d : DocumentState, (d.redo).2 = true →
        ((d.redo).1.dirty = true ↔
          hashChars (d.redo).1.text ≠ (d.redo).1.last_saved_hash)) ∧
    (∀ (d d1 : DocumentState) (char_idx : Nat) (t : List Char),
        d.insert char_idx t = some d1 → d1.dirty = true) ∧
    (∀ (d : DocumentState) (range : CRange),
        range.start < range.stop → range.stop ≤ d.len_chars →
        (d.delete_range range).dirty = true) ∧
    (∀ (d : DocumentState) (t : List Char), (d.set_text t).dirty = d.dirty) := by
  refine ⟨?_, ?_, ?_, ?_, ?_⟩
  · intro d h
    unfold DocumentState.undo at *
    cases hu : d.undo_history.undo with
    | none => rw [hu] at h; simp at h
    | some p =>
        obtain ⟨op, hist⟩ := p
        simp [DocumentState.text]
  · intro d h
    unfold DocumentState.redo at *
    cases hu : d.undo_history.redo with
    | none => rw [hu] at h; simp at h
    | some p =>
        obtain ⟨op, hist⟩ := p
        simp [DocumentState.text]
  · intro d d1 char_idx t h
    unfold DocumentState.insert at h
    split at h
    · cases h
      rfl
    · cases h
  · intro d range h1 h2
    unfold DocumentState.delete_range
    rw [if_neg]
    · rfl
    · unfold DocumentState.len_chars at h2
      omega
  · intro d t
    rfl

/-- Witness for C2 amended: the undo invariant at a concrete document
with one committed operation, and dirty after the concrete
delete_range of docBackToA. -/
theorem c2_dirty_invariant_amended_witness :
    ((DocumentState.new_empty.begin_edit.commit_edit.undo).1.dirty = true ↔
      hashChars (DocumentState.new_empty.begin_edit.commit_edit.undo).1.text ≠
        (DocumentState.new_empty.begin_edit.commit_edit.undo).1.last_saved_hash) ∧
    docBackToA.dirty = true :=
  ⟨c2_dirty_invariant_amended.1 DocumentState.new_empty.begin_edit.commit_edit (by decide),
   c2_dirty_invariant_amended.2.2.2.1 docSavedAB ⟨1, 2⟩ (by decide) (by decide)⟩

/-- C3 counterexample: inserting at index 1 into the empty document is
out of bounds; the call panics (modelled as none) instead of clamping
the index, so insert is not total. -/
theorem c3_counterexample :
    DocumentState.new_empty.insert 1 ['a'] = none := by decide

/-- C3 amended: insert(at, s) does not clamp; it succeeds exactly when
at ≤ len_chars (ropey panics otherwise).  When it succeeds, the length
grows by len(s), revision becomes (revision + 1) mod 2^64 (a strict
increase below the wrap point), dirty is set and the selection is
cleared. -/
theorem c3_insert_requires_bound :
    ∀ (d : DocumentState) (char_idx : Nat) (t : List Char),
      ((d.insert char_idx t).isSome ↔ char_idx ≤ d.len_chars) ∧
      (∀ d1, d.insert char_idx t = some d1 →
        d1.len_chars = d.len_chars + t.length ∧
        d1.revision = (d.revision + 1) % u64Mod ∧
        (d.revision + 1 < u64Mod → d.revision < d1.revision) ∧
        d1.dirty = true ∧ d1.selection = none ∧ d1.selection_anchor = none) := by
  intro d char_idx t
  constructor
  · unfold DocumentState.insert
    split
    · simpa [DocumentState.len_chars]
    · simp [DocumentState.len_chars]
      omega
  · intro d1 h
    unfold DocumentState.insert at h
    split at h
    case isTrue hle =>
      cases h
      refine ⟨?_, rfl, ?_, rfl, rfl, rfl⟩
      · simp [DocumentState.len_chars, DocumentState.bump_revision,
              DocumentState.clear_selection]
        omega
      · intro hlt
        simp [DocumentState.bump_revision, DocumentState.clear_selection,
              Nat.mod_eq_of_lt hlt]
    case isFalse => cases h

/-- Witness for C3 amended: the in-bounds insert of "a" at 0 into the
empty document succeeds and grows the length by one. -/
theorem c3_insert_requires_bound_witness :
    DocumentState.new_empty.insert 0 ['a'] = some docInsertA ∧
    docInsertA.len_chars = DocumentState.new_empty.len_chars + 1 ∧
    docInsertA.dirty = true := by
  refine ⟨by decide, ?_, ?_⟩
  · exact ((c3_insert_requires_bound DocumentState.new_empty 0 ['a']).2
      docInsertA (by decide)).1
  · exact ((c3_insert_requires_bound DocumentState.new_empty 0 ['a']).2
      docInsertA (by decide)).2.2.2.1

/-- C4 counterexample: on a ten-character document,
set_selection(10, 3) places the cursor at 10 (the normalized end), not
at the caller-given second argument 3. -/
theorem c4_counterexample :
    (docTen.set_selection 10 3).cursor = 10 ∧
    (docTen.set_selection 10 3).cursor ≠ 3 := by
  constructor
  · decide
  · decide

/-- C4 amended: set_selection(a, b) stores the normalized range with
start ≤ end, both endpoints clamped to len (None when a = b); the
cursor is placed at the clamped normalized end max(a, b), not at the
caller-given b; selection_anchor is the clamped normalized start; the
buffer is untouched. -/
theorem c4_set_selection_normalized :
    ∀ (d : DocumentState) (a b : Nat),
      ((d.set_selection a b).selection =
        if min a b = max a b then none
        else some ⟨min (min a b) d.len_chars, min (max a b) d.len_chars⟩) ∧
      (d.set_selection a b).cursor = min (max a b) d.len_chars ∧
      (d.set_selection a b).selection_anchor = some (min (min a b) d.len_chars) ∧
      (d.set_selection a b).rope = d.rope := by
  intro d a b
  by_cases h : a ≤ b
  · rw [show min a b = a from Nat.min_eq_left h,
        show max a b = b from Nat.max_eq_right h]
    simp [DocumentState.set_selection, h]
  · rw [show min a b = b from Nat.min_eq_right (by omega),
        show max a b = a from Nat.max_eq_left (by omega)]
    simp [DocumentState.set_selection, h]

/-- C5: delete_range with start ≥ end or end > len_chars is a complete
no-op: the document is returned exactly as it was, revision included. -/
theorem c5_delete_range_noop :
    ∀ (d : DocumentState) (range : CRange),
      range.start ≥ range.stop ∨ range.stop > d.len_chars →
      d.delete_range range = d := by
  intro d range h
  simp only [DocumentState.len_chars] at h
  unfold DocumentState.delete_range
  rw [if_pos h]

/-- Witness for C5: deleting the reversed range 5..3 from the empty
document changes nothing. -/
theorem c5_delete_range_noop_witness :
    DocumentState.new_empty.delete_range ⟨5, 3⟩ = DocumentState.new_empty :=
  c5_delete_range_noop DocumentState.new_empty ⟨5, 3⟩ (Or.inl (by decide))

/-- C8: with two schedule calls in quick succession, the earlier
scheduled unit of work still performs its job - its task handle is
awaited (not dropped) by the newly spawned future, so nothing cancels
it and both jobs run, oldest first.  This contradicts the doc comment
of the Debouncer ("coalesces work and only applies the latest
invocation"). -/
theorem c8_earlier_job_still_runs :
    twoSchedules.executedJobs = [1, 2] ∧ 1 ∈ twoSchedules.executedJobs := by
  constructor
  · decide
  · decide

/-- C9 counterexample: set_text back to the saved content "a" on a
dirty document leaves dirty true - set_text does not recompute dirty
against last_saved_hash (the source defers that to save_snapshot). -/
theorem c9_counterexample :
    docSetTextA.dirty = true ∧
    hashChars docSetTextA.text = docSetTextA.last_saved_hash := by
  constructor
  · decide
  · decide

/-- C9 amended: set_text(s) replaces the content, moves the cursor to
the end, clears the selection, bumps revision (mod 2^64) and
invalidates the word-count cache, but leaves dirty and last_saved_hash
unchanged (dirty handling is deferred to save_snapshot on the load
path). -/
theorem c9_set_text_behavior :
    ∀ (d : DocumentState) (t : List Char),
      (d.set_text t).rope = t ∧
      (d.set_text t).cursor = t.length ∧
      (d.set_text t).selection = none ∧
      (d.set_text t).selection_anchor = none ∧
      (d.set_text t).revision = (d.revision + 1) % u64Mod ∧
      (d.set_text t).word_count_cache = none ∧
      (d.set_text t).dirty = d.dirty ∧
      (d.set_text t).last_saved_hash = d.last_saved_hash := by
  intro d t
  exact ⟨rfl, rfl, rfl, rfl, rfl, rfl, rfl, rfl⟩

/-- C10: the chunk-wise computation of get_word_count counts a word
that spans a chunk boundary once per chunk: on the decomposition
["a", "b"] of the text "ab" it returns 2 while the whitespace-separated
word count of "ab" is 1. -/
theorem c10_word_spanning_chunks_double_counted :
    getWordCountChunks [['a'], ['b']] = 2 ∧
    wordCount (List.flatten [['a'], ['b']]) = 1 ∧
    getWordCountChunks [['a'], ['b']] ≠ wordCount (List.flatten [['a'], ['b']]) := by
  refine ⟨?_, ?_, ?_⟩
  · decide
  · decide
  · decide

/-- Helper: every mutation preserves cursor ≤ len_chars. -/
theorem applyMut_cursor_le (m : EditorMut) (d d1 : DocumentState)
    (h : applyMut d m = some d1) (hc : d.cursor ≤ d.rope.length) :
    d1.cursor ≤ d1.rope.length := by
  cases m with
  | insertText char_idx t =>
      simp only [applyMut] at h
      unfold DocumentState.insert at h
      split at h
      case isTrue hle =>
        cases h
        simp [DocumentState.bump_revision, DocumentState.clear_selection]
        omega
      case isFalse => cases h
  | deleteRange range =>
      simp only [applyMut, Option.some.injEq] at h
      subst h
      unfold DocumentState.delete_range
      split
      · exact hc
      · simp [DocumentState.bump_revision, DocumentState.clear_selection]
  | setText t =>
      simp only [applyMut, Option.some.injEq] at h
      subst h
      simp [DocumentState.set_text, DocumentState.clear_selection,
            DocumentState.bump_revision]
  | setCursor idx =>
      simp only [applyMut, Option.some.injEq] at h
      subst h
      simp [DocumentState.set_cursor, DocumentState.clear_selection,
            DocumentState.len_chars]
  | setSelection a b =>
      simp only [applyMut, Option.some.injEq] at h
      subst h
      simp [DocumentState.set_selection, DocumentState.len_chars]
  | clearSelection =>
      simp only [applyMut, Option.some.injEq] at h
      subst h
      simpa [DocumentState.clear_selection] using hc
  | selectAll =>
      simp only [applyMut, Option.some.injEq] at h
      subst h
      simp [DocumentState.select_all, DocumentState.len_chars]
  | deleteSelection =>
      simp only [applyMut, Option.some.injEq] at h
      subst h
      unfold DocumentState.delete_selection
      cases hs : d.selection with
      | none => simpa using hc
      | some range =>
          simp [DocumentState.clear_selection, DocumentState.len_chars]

/-- Helper: delete_range leaves pending_edit and the history alone. -/
theorem delete_range_frame (d : DocumentState) (range : CRange) :
    (d.delete_range range).pending_edit = d.pending_edit ∧
    (d.delete_range range).undo_history = d.undo_history := by
  unfold DocumentState.delete_range
  split
  · exact ⟨rfl, rfl⟩
  · exact ⟨rfl, rfl⟩

/-- Helper: no mutation touches pending_edit or the undo history. -/
theorem applyMut_frame (m : EditorMut) (d d1 : DocumentState)
    (h : applyMut d m = some d1) :
    d1.pending_edit = d.pending_edit ∧ d1.undo_history = d.undo_history := by
  cases m with
  | insertText char_idx t =>
      simp only [applyMut] at h
      unfold DocumentState.insert at h
      split at h
      case isTrue hle =>
        cases h
        exact ⟨rfl, rfl⟩
      case isFalse => cases h
  | deleteRange range =>
      simp only [applyMut, Option.some.injEq] at h
      subst h
      unfold DocumentState.delete_range
      split
      · exact ⟨rfl, rfl⟩
      · exact ⟨rfl, rfl⟩
  | setText t =>
      simp only [applyMut, Option.some.injEq] at h
      subst h
      exact ⟨rfl, rfl⟩
  | setCursor idx =>
      simp only [applyMut, Option.some.injEq] at h
      subst h
      exact ⟨rfl, rfl⟩
  | setSelection a b =>
      simp only [applyMut, Option.some.injEq] at h
      subst h
      exact ⟨rfl, rfl⟩
  | clearSelection =>
      simp only [applyMut, Option.some.injEq] at h
      subst h
      exact ⟨rfl, rfl⟩
  | selectAll =>
      simp only [applyMut, Option.some.injEq] at h
      subst h
      exact ⟨rfl, rfl⟩
  | deleteSelection =>
      simp only [applyMut, Option.some.injEq] at h
      subst h
      unfold DocumentState.delete_selection
      cases hs : d.selection with
      | none => exact ⟨rfl, rfl⟩
      | some range =>
          exact ⟨(delete_range_frame d range).1, (delete_range_frame d range).2⟩

/-- Helper: applyMut lifted to mutation lists, cursor bound. -/
theorem applyMuts_cursor_le (ms : List EditorMut) :
    ∀ (d d1 : DocumentState), applyMuts d ms = some d1 →
      d.cursor ≤ d.rope.length → d1.cursor ≤ d1.rope.length := by
  induction ms with
  | nil =>
      intro d d1 h hc
      simp only [applyMuts, Option.some.injEq] at h
      subst h
      exact hc
  | cons m ms ih =>
      intro d d1 h hc
      simp only [applyMuts, Option.bind_eq_some] at h
      obtain ⟨dm, hm, hrest⟩ := h
      exact ih dm d1 hrest (applyMut_cursor_le m d dm hm hc)

/-- Helper: applyMuts lifted frame on pending_edit and history. -/
theorem applyMuts_frame (ms : List EditorMut) :
    ∀ (d d1 : DocumentState), applyMuts d ms = some d1 →
      d1.pending_edit = d.pending_edit ∧ d1.undo_history = d.undo_history := by
  induction ms with
  | nil =>
      intro d d1 h
      simp only [applyMuts, Option.some.injEq] at h
      subst h
      exact ⟨rfl, rfl⟩
  | cons m ms ih =>
      intro d d1 h
      simp only [applyMuts, Option.bind_eq_some] at h
      obtain ⟨dm, hm, hrest⟩ := h
      obtain ⟨hp1, hh1⟩ := applyMut_frame m d dm hm
      obtain ⟨hp2, hh2⟩ := ih dm d1 hrest
      exact ⟨hp2.trans hp1, hh2.trans hh1⟩

/-- Helper: a bracketed edit leaves the document with an empty redo
stack, and an undo stack that is empty or whose top records exactly the
resulting text, cursor and selection; the cursor bound is preserved. -/
theorem runBracketed_post (d d1 : DocumentState) (e : List EditorMut)
    (h : runBracketed d e = some d1) (hc : d.cursor ≤ d.rope.length) :
    d1.cursor ≤ d1.rope.length ∧
    d1.undo_history.redo_stack = [] ∧
    (d1.undo_history.undo_stack = [] ∨
      ∃ t rest, d1.undo_history.undo_stack = t :: rest ∧
        t.new_text = d1.rope ∧ t.new_cursor = d1.cursor ∧
        t.new_selection = d1.selection) := by
  unfold runBracketed at h
  rw [Option.map_eq_some'] at h
  obtain ⟨m, hm, hcommit⟩ := h
  have hcm : m.cursor ≤ m.rope.length :=
    applyMuts_cursor_le e d.begin_edit m hm hc
  have hframe := applyMuts_frame e d.begin_edit m hm
  have hpend : m.pending_edit = some ⟨d.rope, d.cursor, d.selection⟩ := by
    rw [hframe.1]
    rfl
  subst hcommit
  unfold DocumentState.commit_edit
  rw [hpend]
  refine ⟨hcm, rfl, ?_⟩
  unfold UndoHistory.push
  cases hmax : m.undo_history.max_history with
  | zero => exact Or.inl (by simp)
  | succ k =>
      refine Or.inr ⟨⟨d.rope, m.rope, d.cursor, m.cursor, d.selection, m.selection⟩,
        (m.undo_history.undo_stack).take k, ?_, rfl, rfl, rfl⟩
      simp only [DocumentState.text, hmax, List.take_succ_cons]

/-- Helper: runEdits with at least one bracketed edit establishes the
same postcondition. -/
theorem runEdits_post (edits : List (List EditorMut)) :
    ∀ (d dN : DocumentState), edits ≠ [] → runEdits d edits = some dN →
      d.cursor ≤ d.rope.length →
      dN.cursor ≤ dN.rope.length ∧
      dN.undo_history.redo_stack = [] ∧
      (dN.undo_history.undo_stack = [] ∨
        ∃ t rest, dN.undo_history.undo_stack = t :: rest ∧
          t.new_text = dN.rope ∧ t.new_cursor = dN.cursor ∧
          t.new_selection = dN.selection) := by
  induction edits with
  | nil => intro d dN hne; exact absurd rfl hne
  | cons e es ih =>
      intro d dN _ h hc
      simp only [runEdits, Option.bind_eq_some] at h
      obtain ⟨d1, h1, hrest⟩ := h
      have post1 := runBracketed_post d d1 e h1 hc
      cases hes : es with
      | nil =>
          subst hes
          simp only [runEdits, Option.some.injEq] at hrest
          subst hrest
          exact post1
      | cons e2 es2 =>
          subst hes
          exact ih d1 dN (by simp) hrest post1.1

/-- Helper: undo on an empty undo stack changes nothing. -/
theorem undo_stack_nil (d : DocumentState)
    (h : d.undo_history.undo_stack = []) : d.undo = (d, false) := by
  unfold DocumentState.undo UndoHistory.undo
  rw [h]

/-- Helper: redo on an empty redo stack changes nothing. -/
theorem redo_stack_nil (d : DocumentState)
    (h : d.undo_history.redo_stack = []) : d.redo = (d, false) := by
  unfold DocumentState.redo UndoHistory.redo
  rw [h]

/-- Helper: repeated undo on an empty undo stack is the identity. -/
theorem undoN_empty (n : Nat) :
    ∀ d : DocumentState, d.undo_history.undo_stack = [] → undoN n d = d := by
  induction n with
  | zero => intro d _; rfl
  | succ n ih =>
      intro d h
      show undoN n (d.undo).1 = d
      rw [undo_stack_nil d h]
      exact ih d h

/-- Helper: repeated redo on an empty redo stack is the identity. -/
theorem redoN_empty (n : Nat) :
    ∀ d : DocumentState, d.undo_history.redo_stack = [] → redoN n d = d := by
  induction n with
  | zero => intro d _; rfl
  | succ n ih =>
      intro d h
      show redoN n (d.redo).1 = d
      rw [redo_stack_nil d h]
      exact ih d h

/-- Helper: the history state after one undo pop. -/
theorem undo_cons_history (d : DocumentState) (t : EditOperation)
    (rest : List EditOperation) (h : d.undo_history.undo_stack = t :: rest) :
    (d.undo).1.undo_history =
      { undo_stack := rest, redo_stack := t :: d.undo_history.redo_stack,
        max_history := d.undo_history.max_history } := by
  unfold DocumentState.undo UndoHistory.undo
  rw [h]

/-- Helper: after n undo calls the redo stack holds the reversal of the
first min n k popped operations on top of the old redo stack. -/
theorem undoN_redo_stack (n : Nat) :
    ∀ d : DocumentState,
      (undoN n d).undo_history.redo_stack =
        (d.undo_history.undo_stack.take
            (min n d.undo_history.undo_stack.length)).reverse
          ++ d.undo_history.redo_stack := by
  induction n with
  | zero =>
      intro d
      simp [undoN]
  | succ n ih =>
      intro d
      show (undoN n (d.undo).1).undo_history.redo_stack = _
      cases hS : d.undo_history.undo_stack with
      | nil =>
          rw [undo_stack_nil d hS]
          rw [ih d, hS]
          simp
      | cons t rest =>
          rw [ih (d.undo).1, undo_cons_history d t rest hS]
          simp only [hS, List.length_cons, Nat.succ_min_succ, List.take_succ_cons,
                     List.reverse_cons, List.append_assoc, List.cons_append,
                     List.nil_append]

/-- Helper: the document fields redo restores when the redo stack is
nonempty. -/
theorem redo_cons_fields (d : DocumentState) (op : EditOperation)
    (L2 : List EditOperation) (h : d.undo_history.redo_stack = op :: L2) :
    (d.redo).1.rope = op.new_text ∧
    (d.redo).1.cursor = min op.new_cursor op.new_text.length ∧
    (d.redo).1.selection = op.new_selection ∧
    (d.redo).1.undo_history.redo_stack = L2 := by
  unfold DocumentState.redo UndoHistory.redo
  rw [h]
  exact ⟨rfl, rfl, rfl, rfl⟩

/-- Helper: n redo calls with n at least the redo-stack length replay
up to the bottom of the redo stack (its getLast), which determines the
final text, cursor and selection. -/
theorem redoN_final (L : List EditOperation) :
    ∀ (d : DocumentState) (n : Nat) (t : EditOperation),
      d.undo_history.redo_stack = L → L.length ≤ n → L.getLast? = some t →
      (redoN n d).rope = t.new_text ∧
      (redoN n d).cursor = min t.new_cursor t.new_text.length ∧
      (redoN n d).selection = t.new_selection := by
  induction L with
  | nil => intro d n t _ _ hlast; cases hlast
  | cons op L2 ih =>
      intro d n t hL hn hlast
      obtain ⟨m, rfl⟩ : ∃ m, n = m + 1 := by
        cases n with
        | zero => simp at hn
        | succ m => exact ⟨m, rfl⟩
      have hfields := redo_cons_fields d op L2 hL
      cases hL2 : L2 with
      | nil =>
          subst hL2
          have ht : op = t := by simpa using hlast
          subst ht
          have hred : redoN (m + 1) d = (d.redo).1 := by
            show redoN m (d.redo).1 = (d.redo).1
            exact redoN_empty m (d.redo).1 hfields.2.2.2
          rw [hred]
          exact ⟨hfields.1, hfields.2.1, hfields.2.2.1⟩
      | cons op2 L3 =>
          subst hL2
          have hlen : (op2 :: L3).length ≤ m := by
            simp only [List.length_cons] at hn ⊢
            omega
          have hlast2 : (op2 :: L3).getLast? = some t := by
            rw [← List.getLast?_cons_cons]
            exact hlast
          show (redoN m (d.redo).1).rope = _ ∧ _ ∧ _
          exact ih (d.redo).1 m t hfields.2.2.2 hlen hlast2

/-- Helper: if the redo stack is empty and the undo stack is empty or
records the current state on top, then n undos followed by n redos
restore the text, cursor and selection (for any n ≥ 1). -/
theorem roundtrip_core (n : Nat) (d : DocumentState) (hn : 1 ≤ n)
    (hredo : d.undo_history.redo_stack = [])
    (hc : d.cursor ≤ d.rope.length)
    (hstack : d.undo_history.undo_stack = [] ∨
      ∃ t rest, d.undo_history.undo_stack = t :: rest ∧
        t.new_text = d.rope ∧ t.new_cursor = d.cursor ∧
        t.new_selection = d.selection) :
    (redoN n (undoN n d)).rope = d.rope ∧
    (redoN n (undoN n d)).cursor = d.cursor ∧
    (redoN n (undoN n d)).selection = d.selection := by
  cases hstack with
  | inl hempty =>
      rw [undoN_empty n d hempty, redoN_empty n d hredo]
      exact ⟨rfl, rfl, rfl⟩
  | inr h =>
      obtain ⟨t, rest, hS, h1, h2, h3⟩ := h
      obtain ⟨m, rfl⟩ : ∃ m, n = m + 1 := ⟨n - 1, by omega⟩
      have hu := undoN_redo_stack (m + 1) d
      rw [hS, hredo, List.append_nil] at hu
      have htake : (t :: rest).take (min (m + 1) (t :: rest).length)
          = t :: rest.take (min m rest.length) := by
        simp [List.length_cons, Nat.succ_min_succ, List.take_succ_cons]
      rw [htake, List.reverse_cons] at hu
      have hlenL :
          ((rest.take (min m rest.length)).reverse ++ [t]).length ≤ m + 1 := by
        simp only [List.length_append, List.length_reverse, List.length_take,
                   List.length_cons, List.length_nil]
        omega
      have hlast :
          ((rest.take (min m rest.length)).reverse ++ [t]).getLast? = some t :=
        List.getLast?_concat _
      have hfin := redoN_final _ (undoN (m + 1) d) (m + 1) t hu hlenL hlast
      refine ⟨?_, ?_, ?_⟩
      · rw [hfin.1, h1]
      · rw [hfin.2.1, h2, h1, Nat.min_eq_left hc]
      · rw [hfin.2.2, h3]

/-- C6: for every sequence of N edits each bracketed by
begin_edit/commit_edit (and succeeding, i.e. no out-of-bounds insert
panicked), calling undo() N times and then redo() N times restores
exactly the buffer text, the cursor and the selection present after
the N original edits.  This holds for any history limit: once the undo
stack is exhausted the extra undo/redo calls are no-ops, and the last
replayed redo is always the most recent committed operation. -/
theorem c6_undo_redo_roundtrip :
    ∀ (d0 : DocumentState) (edits : List (List EditorMut)) (dN : DocumentState),
      d0.cursor ≤ d0.len_chars →
      runEdits d0 edits = some dN →
      (redoN edits.length (undoN edits.length dN)).text = dN.text ∧
      (redoN edits.length (undoN edits.length dN)).cursor = dN.cursor ∧
      (redoN edits.length (undoN edits.length dN)).selection = dN.selection := by
  intro d0 edits dN hc hrun
  cases edits with
  | nil =>
      simp only [runEdits, Option.some.injEq] at hrun
      subst hrun
      exact ⟨rfl, rfl, rfl⟩
  | cons e es =>
      have hpost := runEdits_post (e :: es) d0 dN (by simp) hrun hc
      exact roundtrip_core (e :: es).length dN (by simp) hpost.2.1 hpost.1
        hpost.2.2

/-- Witness for C6: a concrete one-edit script on the empty document;
the roundtrip restores its text. -/
theorem c6_undo_redo_roundtrip_witness :
    runEdits DocumentState.new_empty c6edits = some c6doc ∧
    (redoN c6edits.length (undoN c6edits.length c6doc)).text = c6doc.text := by
  refine ⟨by decide, ?_⟩
  exact (c6_undo_redo_roundtrip DocumentState.new_empty c6edits c6doc
    (by decide) (by decide)).1

/-- Helper: lookup in an enumFrom list misses exactly the absent
labels. -/
theorem lookup_enumFrom_none (acc : List String) :
    ∀ (k : Nat) (l : String),
      lookupAssoc (enumFrom k acc) l = none ↔ l ∉ acc := by
  induction acc with
  | nil => intro k l; simp [enumFrom, lookupAssoc]
  | cons x xs ih =>
      intro k l
      simp only [enumFrom, lookupAssoc, List.mem_cons]
      by_cases hx : x = l
      · subst hx
        simp
      · simp only [if_neg hx, ih (k + 1) l]
        constructor
        · intro hnot hor
          cases hor with
          | inl he => exact hx he.symm
          | inr hm => exact hnot hm
        · intro hnot hm
          exact hnot (Or.inr hm)

/-- Helper: enumFrom over an appended singleton. -/
theorem enumFrom_append_single (x : String) :
    ∀ (xs : List String) (k : Nat),
      enumFrom k (xs ++ [x]) = enumFrom k xs ++ [(x, xs.length + k)] := by
  intro xs
  induction xs with
  | nil => intro k; simp [enumFrom]
  | cons y ys ih =>
      intro k
      have harith : ys.length + (k + 1) = (y :: ys).length + k := by
        simp only [List.length_cons]
        omega
      simp only [List.cons_append, enumFrom, List.append_eq]
      rw [ih (k + 1), harith]

/-- Helper: the labels of an enumFrom list. -/
theorem enumFrom_map_fst :
    ∀ (xs : List String) (k : Nat), (enumFrom k xs).map Prod.fst = xs := by
  intro xs
  induction xs with
  | nil => intro k; rfl
  | cons y ys ih => intro k; simp [enumFrom, ih (k + 1)]

/-- Helper: every index in enumFrom k is at least k. -/
theorem enumFrom_snd_ge :
    ∀ (xs : List String) (k : Nat) (p : String × Nat),
      p ∈ enumFrom k xs → k ≤ p.2 := by
  intro xs
  induction xs with
  | nil => intro k p hp; cases hp
  | cons y ys ih =>
      intro k p hp
      simp only [enumFrom, List.mem_cons] at hp
      cases hp with
      | inl he => subst he; exact le_rfl
      | inr hm => exact Nat.le_of_succ_le (ih (k + 1) p hm)

/-- Helper: enumFrom indices are strictly increasing. -/
theorem enumFrom_snd_pairwise :
    ∀ (xs : List String) (k : Nat),
      List.Pairwise (fun a b : String × Nat => a.2 < b.2) (enumFrom k xs) := by
  intro xs
  induction xs with
  | nil => intro k; exact List.Pairwise.nil
  | cons y ys ih =>
      intro k
      refine List.Pairwise.cons ?_ (ih (k + 1))
      intro p hp
      exact Nat.lt_of_succ_le (enumFrom_snd_ge ys (k + 1) p hp)

/-- Helper: collecting first-reference labels keeps them distinct. -/
theorem refStep_fold_nodup (events : List MdEvent) :
    ∀ acc : List String, acc.Nodup → (events.foldl refStep acc).Nodup := by
  induction events with
  | nil => intro acc h; exact h
  | cons ev evs ih =>
      intro acc h
      refine ih (refStep acc ev) ?_
      cases ev with
      | footnoteReference label =>
          simp only [refStep]
          split
          · exact h
          · next hmem => simp [List.nodup_append, h, hmem]
      | startParagraph => exact h
      | endParagraph => exact h
      | startHeading level => exact h
      | endHeading => exact h
      | startList s => exact h
      | endList => exact h
      | startItem => exact h
      | endItem => exact h
      | taskListMarker c => exact h
      | startBlockQuote => exact h
      | endBlockQuote => exact h
      | startCodeBlock => exact h
      | endCodeBlock => exact h
      | startFootnoteDefinition l => exact h
      | endFootnoteDefinition => exact h
      | text t => exact h
      | code t => exact h
      | startEmphasis => exact h
      | endEmphasis => exact h
      | startStrong => exact h
      | endStrong => exact h
      | startLink u => exact h
      | endLink => exact h
      | startImage u => exact h
      | endImage => exact h
      | hardOrSoftBreak => exact h
      | other => exact h

/-- Helper: the labels in order of first reference are distinct. -/
theorem firstRefLabels_nodup (events : List MdEvent) :
    (firstRefLabels events).Nodup :=
  refStep_fold_nodup events [] List.nodup_nil

/-- Helper: removing one key leaves lookups of other keys alone. -/
theorem lookup_remove_ne {α : Type} (m : List (String × α)) :
    ∀ (k k2 : String), k2 ≠ k →
      lookupAssoc (removeAssoc m k) k2 = lookupAssoc m k2 := by
  induction m with
  | nil => intro k k2 _; rfl
  | cons p rest ih =>
      intro k k2 hne
      obtain ⟨k1, v⟩ := p
      simp only [removeAssoc, lookupAssoc]
      by_cases h1 : k1 = k
      · subst h1
        rw [if_pos rfl, if_neg (fun he => hne he.symm)]
      · rw [if_neg h1]
        simp only [lookupAssoc]
        by_cases h2 : k1 = k2
        · rw [if_pos h2, if_pos h2]
        · rw [if_neg h2, if_neg h2]
          exact ih k k2 hne

/-- Helper: one render step updates the footnote index map exactly as
the first-reference collection does: a first reference appends the
label with index next_footnote_index, anything else leaves the map and
the counter alone. -/
theorem renderStep_indices (st : RenderState) (acc : List String) (ev : MdEvent)
    (h1 : st.footnote_indices = enumFrom 1 acc)
    (h2 : st.next_footnote_index = acc.length + 1) :
    (renderStep st ev).footnote_indices = enumFrom 1 (refStep acc ev) ∧
    (renderStep st ev).next_footnote_index = (refStep acc ev).length + 1 := by
  cases ev
  case footnoteReference label =>
    simp only [renderStep, refStep]
    rw [h1]
    cases hlook : lookupAssoc (enumFrom 1 acc) label with
    | some idx =>
        have hmem : label ∈ acc := by
          by_contra hm
          rw [(lookup_enumFrom_none acc 1 label).2 hm] at hlook
          cases hlook
        rw [if_pos hmem]
        constructor
        · split <;> rfl
        · split <;> exact h2
    | none =>
        have hmem : label ∉ acc := (lookup_enumFrom_none acc 1 label).1 hlook
        rw [if_neg hmem]
        constructor
        · split <;>
            (show enumFrom 1 acc ++ [(label, st.next_footnote_index)] = _
             rw [h2, enumFrom_append_single label acc 1])
        · split <;>
            (show st.next_footnote_index + 1 = _
             rw [h2]
             simp only [List.length_append, List.length_cons, List.length_nil])
  all_goals
    simp only [renderStep, refStep]
    repeat' split
    all_goals exact ⟨h1, h2⟩

/-- Helper: the fold of render steps keeps the index map equal to the
enumeration of the first-reference label list. -/
theorem foldl_renderStep_indices (events : List MdEvent) :
    ∀ (st : RenderState) (acc : List String),
      st.footnote_indices = enumFrom 1 acc →
      st.next_footnote_index = acc.length + 1 →
      (events.foldl renderStep st).footnote_indices =
        enumFrom 1 (events.foldl refStep acc) ∧
      (events.foldl renderStep st).next_footnote_index =
        (events.foldl refStep acc).length + 1 := by
  induction events with
  | nil => intro st acc h1 h2; exact ⟨h1, h2⟩
  | cons ev evs ih =>
      intro st acc h1 h2
      have hstep := renderStep_indices st acc ev h1 h2
      exact ih (renderStep st ev) (refStep acc ev) hstep.1 hstep.2

/-- Helper: the final index map of render_blocks is the enumeration of
the labels in order of first reference. -/
theorem final_indices (events : List MdEvent) :
    (events.foldl renderStep RenderState.init).footnote_indices =
      enumFrom 1 (firstRefLabels events) :=
  (foldl_renderStep_indices events RenderState.init [] rfl rfl).1

/-- Helper: with pairwise-distinct labels, the stateful collection
with HashMap::remove is the plain filter-map by lookup. -/
theorem collectFootnotes_eq_filterMap :
    ∀ (pairs : List (String × Nat)) (defs : List (String × List InlineRun)),
      (pairs.map Prod.fst).Nodup →
      collectFootnotes pairs defs =
        pairs.filterMap (fun li =>
          (lookupAssoc defs li.1).map (fun c => (li.2, li.1, c))) := by
  intro pairs
  induction pairs with
  | nil => intro defs _; rfl
  | cons p rest ih =>
      intro defs hnd
      obtain ⟨l, i⟩ := p
      simp only [List.map_cons, List.nodup_cons] at hnd
      obtain ⟨hl, hrest⟩ := hnd
      simp only [collectFootnotes, List.filterMap_cons]
      cases hlook : lookupAssoc defs l with
      | some c =>
          simp only [Option.map_some]
          rw [ih (removeAssoc defs l) hrest]
          congr 1
          apply List.filterMap_congr
          intro li hmem
          have hne : li.1 ≠ l := by
            intro he
            exact hl (he ▸ List.mem_map_of_mem Prod.fst hmem)
          rw [lookup_remove_ne defs l li.1 hne]
      | none =>
          simp only [Option.map_none]
          exact ih defs hrest

/-- Helper: a list already strictly sorted by key is a fixed point of
the stable insertion sort. -/
theorem sortByKey_sorted_id :
    ∀ l : List (Nat × String × List InlineRun),
      List.Pairwise (fun a b => a.1 < b.1) l → sortByKey l = l := by
  intro l
  induction l with
  | nil => intro _; rfl
  | cons x rest ih =>
      intro hp
      obtain ⟨hx, hrest⟩ := List.pairwise_cons.1 hp
      simp only [sortByKey]
      rw [ih hrest]
      cases hr : rest with
      | nil => rfl
      | cons y t =>
          simp only [insertByKey]
          rw [if_neg]
          intro hle
          have := hx y (by rw [hr]; exact List.mem_cons_self y t)
          omega

/-- Helper: the trailing-runs flush does not touch the footnote
bookkeeping, so the emitted footnotes depend only on the index map and
the definition map. -/
theorem renderFinish_footnotes (st : RenderState) :
    (renderFinish st).footnotes =
      (sortByKey (collectFootnotes st.footnote_indices st.footnote_definitions)).map
        (fun x => Block.footnoteDefinition x.2.1 x.1 x.2.2) := by
  unfold renderFinish
  split
  · rfl
  · rfl

/-- C7: for every event stream, render_blocks assigns each footnote
label the 1-based index of its first reference, emits exactly the
definitions of referenced labels (unreferenced definitions and
undefined references are dropped), ordered by display index; and the
display indices in the output are strictly increasing. -/
theorem c7_footnote_reference_order (events : List MdEvent) :
    (render_blocks events).footnotes = specFootnotes events ∧
    List.Pairwise (· < ·)
      ((render_blocks events).footnotes.filterMap footnoteIndexOf) := by
  have hidx := final_indices events
  set st := events.foldl renderStep RenderState.init with hst
  have hnodup : ((st.footnote_indices).map Prod.fst).Nodup := by
    rw [hidx, enumFrom_map_fst]
    exact firstRefLabels_nodup events
  have hcollect := collectFootnotes_eq_filterMap st.footnote_indices
    st.footnote_definitions hnodup
  have hbase : List.Pairwise (fun a b : String × Nat => a.2 < b.2)
      st.footnote_indices := by
    rw [hidx]
    exact enumFrom_snd_pairwise (firstRefLabels events) 1
  have hpair : List.Pairwise (fun a b => a.1 < b.1)
      (st.footnote_indices.filterMap (fun li =>
        (lookupAssoc st.footnote_definitions li.1).map
          (fun c => (li.2, li.1, c)))) := by
    refine List.Pairwise.filterMap _ ?_ hbase
    intro a a' hlt b hb b' hb'
    simp only [Option.mem_def, Option.map_eq_some'] at hb hb'
    obtain ⟨c, _, rfl⟩ := hb
    obtain ⟨c', _, rfl⟩ := hb'
    exact hlt
  have hfoot : (render_blocks events).footnotes =
      (st.footnote_indices.filterMap (fun li =>
        (lookupAssoc st.footnote_definitions li.1).map
          (fun c => (li.2, li.1, c)))).map
        (fun x => Block.footnoteDefinition x.2.1 x.1 x.2.2) := by
    show (renderFinish st).footnotes = _
    rw [renderFinish_footnotes st, hcollect, sortByKey_sorted_id _ hpair]
  constructor
  · rw [hfoot, List.map_filterMap]
    unfold specFootnotes finalDefsOf
    rw [hidx]
    apply List.filterMap_congr
    intro li _
    cases lookupAssoc st.footnote_definitions li.1 <;> rfl
  · rw [hfoot, List.filterMap_map]
    have hcomp : (footnoteIndexOf ∘ fun x : Nat × String × List InlineRun =>
        Block.footnoteDefinition x.2.1 x.1 x.2.2) =
          fun x : Nat × String × List InlineRun => some x.1 := rfl
    rw [hcomp]
    rw [show (fun x : Nat × String × List InlineRun => some x.1)
          = some ∘ (fun x : Nat × String × List InlineRun => x.1) from rfl,
        List.filterMap_eq_map]
    exact List.pairwise_map.2 hpair
